import Mathlib

/-!
Verification development for the COA data-validation pipeline
(`coa_data_validation.py`).  The definitions below are a shallow embedding of
the pure core of that module: test-result extraction, fuzzy best-match
selection, candidate-row generation, final entity-code selection, envelope
parsing, and the per-entity ranking / quality-filter / export stage.

Modelling conventions:
- Python strings are `String`, processed as `List Char` where the source uses
  regular expressions; `None` / NaN is `Option.none`.
- Python `float(tok)` applied to a decimal literal matched by the numeric
  regex is modelled as the exact rational value of the literal (`Rat`); no
  claim depends on binary floating-point rounding.
- Dates are compared by pandas with the total order on the stored values
  (ISO-formatted date strings compare lexicographically, i.e. chronologically);
  they are modelled as `Option Nat` with the order on `Nat`.
- `fuzzywuzzy.fuzz.token_set_ratio` is an opaque similarity scorer; it is a
  function parameter `simScore` wherever it is consumed, since no claim
  depends on its internal formula, only on how its scores are compared.
-/

namespace COA

/-! ## Numeric-token search, embedding the regex searches of the source.

`re.search(r'[\d]*\.?\d+', s)` (lines 151 and 156 of the source) returns the
leftmost match; with backtracking that is: at the first position holding a
digit, the maximal digit run, extended by a dot and a following digit run when
a dot with at least one digit immediately follows; at a dot followed by a
digit, the dot with the following digit run. -/

/-- Greedy numeric token of the regex at the start of the character list,
if the regex can match there. -/
def numTokenAt : List Char → Option (List Char)
  | [] => none
  | c :: rest =>
    if c.isDigit then
      let d1 := List.takeWhile Char.isDigit (c :: rest)
      match List.dropWhile Char.isDigit (c :: rest) with
      | '.' :: r2 =>
        if (r2.head?.elim false Char.isDigit) then
          some (d1 ++ '.' :: List.takeWhile Char.isDigit r2)
        else some d1
      | _ => some d1
    else if c = '.' then
      if (rest.head?.elim false Char.isDigit) then
        some ('.' :: List.takeWhile Char.isDigit rest)
      else none
    else none

/-- Leftmost numeric token in a character list. -/
def firstNumCs : List Char → Option (List Char)
  | [] => none
  | c :: rest =>
    match numTokenAt (c :: rest) with
    | some t => some t
    | none => firstNumCs rest

/-- Leftmost numeric token of a string: `re.search(r'[\d]*\.?\d+', s)`. -/
def firstNumToken (s : String) : Option String :=
  Option.map String.mk (firstNumCs s.toList)

/-- Numeric value of the digit characters (base 10). -/
def digitsToNat (cs : List Char) : Nat :=
  cs.foldl (fun a c => 10 * a + (c.toNat - 48)) 0

/-- Exact rational value of a matched numeric token, modelling Python
`float(m.group())` on the decimal literal. -/
def ratOfToken (s : String) : Rat :=
  let cs := s.toList
  let ip := cs.takeWhile Char.isDigit
  match cs.dropWhile Char.isDigit with
  | '.' :: fp => mkRat (digitsToNat (ip ++ fp)) (10 ^ fp.length)
  | _ => (digitsToNat ip : Rat)

/-- Lookahead `(?=\s*cfu)` (case-insensitive), line 177 of the source. -/
def cfuAfter (cs : List Char) : Bool :=
  match cs.dropWhile Char.isWhitespace with
  | c :: f :: u :: _ => (c.toLower == 'c') && (f.toLower == 'f') && (u.toLower == 'u')
  | _ => false

/-- Leftmost numeric token that is followed by optional whitespace and "cfu":
`re.search(r'[\d]*\.?\d+(?=\s*cfu)', s, re.IGNORECASE)`. -/
def numBeforeCfuCs : List Char → Option (List Char)
  | [] => none
  | c :: rest =>
    match numTokenAt (c :: rest) with
    | some t => if cfuAfter (List.drop t.length (c :: rest)) then some t else numBeforeCfuCs rest
    | none => numBeforeCfuCs rest

/-- String version of `numBeforeCfuCs`. -/
def numBeforeCfu (s : String) : Option String :=
  Option.map String.mk (numBeforeCfuCs s.toList)

/-- Word character of the regex `\b` boundary (ASCII model of `\w`). -/
def isWordChar (c : Char) : Bool :=
  c.isAlphanum || c == '_'

/-- Left boundary condition of `\b`: start of string or a non-word character. -/
def boundaryBefore : Option Char → Bool
  | none => true
  | some p => !isWordChar p

/-- The pattern occurs at the head of `s` with word boundaries on both sides,
`prev` being the character just before `s` (none at the start of the text). -/
def wordHitAt (pat : List Char) (prev : Option Char) (s : List Char) : Bool :=
  pat.isPrefixOf s && boundaryBefore prev
    && ((List.drop pat.length s).head?.elim true (fun c => !isWordChar c))

/-- The pattern occurs somewhere in the text with word boundaries. -/
def occursAsWord (pat : List Char) : Option Char → List Char → Bool
  | prev, [] => wordHitAt pat prev []
  | prev, c :: t => wordHitAt pat prev (c :: t) || occursAsWord pat (some c) t

/-- Negative qualitative markers of lines 161 and 182 of the source
(`not detected|conform|conforms|negative|absent|none`, same set in both). -/
def negMarkers : List String :=
  ["not detected", "conform", "conforms", "negative", "absent", "none"]

/-- Search for a negative marker as a whole word in the lowercased text:
`re.search(r'\b(not detected|conform|conforms|negative|absent|none)\b', s.lower())`. -/
def hasNegMarker (s : String) : Bool :=
  negMarkers.any (fun m => occursAsWord m.toList none (s.toList.map Char.toLower))

/-! ## Test-result extraction (`extract_chem_info`, `extract_micro_info`). -/

/-- One entry of the `test_results` list of the JSON envelope; absent fields
default to the empty string as with `item.get(..., '')`. -/
structure TestEntry where
  test : String
  result : String
  limit : String
deriving DecidableEq

/-- Chemical extraction, lines 140-164 of the source.  `pat` models the search
of the compiled category pattern `COMPILED_CHEM[key]` on the test label; the
first matching entry is taken (`next(...)`), then: first number in `result`,
else first number in `limit`, else `0.0` on a negative marker in `result`,
else `None`. -/
def extract_chem_info (pat : String → Bool) (test_results : List TestEntry) : Option Rat :=
  match test_results.find? (fun item => pat item.test) with
  | none => none
  | some info =>
    match firstNumToken info.result with
    | some t => some (ratOfToken t)
    | none =>
      match firstNumToken info.limit with
      | some t => some (ratOfToken t)
      | none => if hasNegMarker info.result then some 0 else none

/-- Microbial extraction, lines 167-185 of the source: first matching entry,
then a number directly before "cfu" in `result`, else `0.0` on a negative
marker in `result`, else `None`.  The `limit` field is never read. -/
def extract_micro_info (pat : String → Bool) (test_results : List TestEntry) : Option Rat :=
  match test_results.find? (fun item => pat item.test) with
  | none => none
  | some info =>
    match numBeforeCfu info.result with
    | some t => some (ratOfToken t)
    | none => if hasNegMarker info.result then some 0 else none

/-! ## Fuzzy fallback matching (`find_best_match`, lines 289-310). -/

/-- One row of the raw-material catalog (`rm_df`): part number and
description. -/
structure RMEntry where
  partNumber : String
  description : String
deriving DecidableEq

/-- Loop body of `find_best_match`: iterate the catalog keeping the row whose
score strictly exceeds the best seen so far (`if score > best_score`), the
best score starting at `-1` and the best row at `None`. -/
def findBestAux (f : RMEntry → Nat) : List RMEntry → Int → Option RMEntry → Int × Option RMEntry
  | [], best, row => (best, row)
  | e :: rest, best, row =>
    if (f e : Int) > best then findBestAux f rest (f e) (some e)
    else findBestAux f rest best row

/-- Best fuzzy match of a product name over the catalog, lines 289-310.
`simScore` models `fuzz.token_set_ratio`; the source scores each row by
`simScore product_name row.description`. -/
def find_best_match (simScore : String → String → Nat) (product_name : String)
    (rm : List RMEntry) : Int × Option RMEntry :=
  findBestAux (fun e => simScore product_name e.description) rm (-1) none

/-! ## Candidate-row generation (step 1, lines 364-398) and the per-document
winner (step 5, lines 517-530). -/

/-- Cross set of the exploded lot-number candidates with the exploded
filename M-number candidates: the two successive `explode` calls yield one
row per (lot, m-number) pair, the m-number list being computed from the
filename and hence identical on every exploded copy. -/
def candidateRows (lots ms : List String) : List (String × String) :=
  lots.flatMap (fun l => ms.map (fun m => (l, m)))

/-- Loop of the per-document winner: `rank(method="first", ascending=False)`
keeps the first row attaining the maximal similarity, so a later row replaces
the current best only on a strictly greater score. -/
def docWinnerAux (f : α → Nat) : List α → α → α
  | [], best => best
  | r :: rest, best => docWinnerAux f rest (if f r > f best then r else best)

/-- The single rank-1 row of a document, lines 517-530: the first row of the
group attaining the maximal name similarity. -/
def docWinner (f : α → Nat) : List α → Option α
  | [] => none
  | r :: rest => some (docWinnerAux f rest r)

/-! ## Final entity-code selection (step 5, lines 533-563). -/

/-- Final RM code of a rank-1 row, the nested `np.where` of lines 533-543:
`ns1`/`ns2` are the exact-match similarities of the row, `maxSim` the
per-document maximum, and the row-level similarity is their maximum. -/
def rm_id_final (ns1 ns2 maxSim : Nat) (c1 c2 c3 : Option String) : Option String :=
  let ns := max ns1 ns2
  if maxSim ≠ 0 ∧ ns1 = ns then c1
  else if maxSim ≠ 0 ∧ ns2 = ns then c2
  else c3

/-- Final similarity of a rank-1 row, the `np.where` of lines 559-563. -/
def name_similarity_final (maxSim ns3 : Nat) : Nat :=
  if maxSim = 0 then ns3 else maxSim

/-! ## Envelope parsing (`safe_parse`, lines 84-108) and lot-candidate
derivation (lines 364-367). -/

/-- The slice of the parsed JSON envelope consumed by step 1; a missing or
falsy `lot_number(s)` field is the empty list (Python falsiness of `None`,
`""` and `[]` under `or`). -/
structure Env where
  lot_number : List String
  lot_numbers : List String
deriving DecidableEq

/-- The empty envelope `{}`. -/
def emptyEnv : Env := ⟨[], []⟩

/-- Python `str.strip()`: drop whitespace at both ends. -/
def pyStrip (cs : List Char) : List Char :=
  ((cs.dropWhile Char.isWhitespace).reverse.dropWhile Char.isWhitespace).reverse

/-- Lines 94-96 of the source: when the text starts with a single quote
(code point 39) followed, after optional whitespace, by an opening brace
(code point 123), strip all leading single quotes. -/
def stripLeadQuote (t : List Char) : List Char :=
  match t with
  | c :: rest =>
    if c.toNat = 39 ∧ ((rest.dropWhile Char.isWhitespace).head?.elim false (fun b => b.toNat = 123))
    then t.dropWhile (fun d => d.toNat = 39)
    else t
  | [] => t

/-- The text handed to the JSON parsers: `str(cell).strip()` with the
Google-Sheets formula quote removed. -/
def preprocessCell (c : String) : String :=
  String.mk (stripLeadQuote (pyStrip c.toList))

/-- Lines 84-108 of the source.  The two fallible parsers (`json.loads` and
`ast.literal_eval`, external libraries) are parameters returning `Option`;
the `try/except` chain returns the first success and `{}` when both fail or
the cell is missing.  The function is total: no parse failure escapes. -/
def safe_parse (jsonParse astParse : String → Option Env) (cell : Option String) : Env :=
  match cell with
  | none => emptyEnv
  | some c =>
    match jsonParse (preprocessCell c) with
    | some d => d
    | none => (astParse (preprocessCell c)).getD emptyEnv

/-- Line 367 of the source:
`d.get("lot_number") or d.get("lot_numbers") or [0]`; the scalar sentinel
`0` is modelled as the string "0", which is how every later stage reads it
(`str(x)`). -/
def lotCandidates (d : Env) : List String :=
  if d.lot_number ≠ [] then d.lot_number
  else if d.lot_numbers ≠ [] then d.lot_numbers
  else ["0"]

/-! ## Per-entity ranking and export (steps 6-7, lines 576-597). -/

/-- One resolved assignment as seen by the quality filter and the ranking:
final entity code (`rm_id_final`, `None` when unmatched), the two date
fields, the per-document maximal exact similarity, the final similarity and
the sufficiency score (`None` when the JSON lacks it). -/
structure ARow where
  code : Option String
  mfg : Option Nat
  expiry : Option Nat
  maxSim : Nat
  simFinal : Nat
  suff : Option Int
deriving DecidableEq

/-- Attach the group-local row position, `group['row_order'] = range(len(group))`
(line 316). -/
def withOrder : Nat → List ARow → List (ARow × Nat)
  | _, [] => []
  | n, r :: t => (r, n) :: withOrder (n + 1) t

/-- Sequential rank column over an already reordered group,
`range(k, ...)` of lines 329-331. -/
def assignRanks : Nat → List ARow → List (ARow × Nat)
  | _, [] => []
  | n, r :: t => (r, n) :: assignRanks (n + 1) t

/-- Partition member `with_mfg` (line 319): rows with a manufacture date. -/
def withMfg (gi : List (ARow × Nat)) : List (ARow × Nat) :=
  gi.filter (fun p => p.1.mfg.isSome)

/-- Partition member `with_expiry` (line 320): no manufacture date, known
expiry date. -/
def withExpiry (gi : List (ARow × Nat)) : List (ARow × Nat) :=
  gi.filter (fun p => p.1.mfg.isNone && p.1.expiry.isSome)

/-- Partition member `fallback` (line 321): neither date known. -/
def fallbackTier (gi : List (ARow × Nat)) : List (ARow × Nat) :=
  gi.filter (fun p => p.1.mfg.isNone && p.1.expiry.isNone)

/-- Descending `sort_values` on a key (lines 324-325); a sorted permutation
of the input, which is all the claims depend on. -/
def sortByKeyDesc {β : Type} (key : β → Nat) (l : List β) : List β :=
  List.insertionSort (fun a b => key b ≤ key a) l

/-- Ascending `sort_values` on a key (line 326). -/
def sortByKeyAsc {β : Type} (key : β → Nat) (l : List β) : List β :=
  List.insertionSort (fun a b => key a ≤ key b) l

/-- Reordered group of `custom_rank` (lines 313-334): partition into rows
with a manufacture date, rows with only an expiry date, and the rest; sort
the first two by their date descending and the third by arrival order
(`row_order`); then concatenate. -/
def reorder (g : List ARow) : List ARow :=
  (sortByKeyDesc (fun p => p.1.mfg.getD 0) (withMfg (withOrder 0 g)) ++
   sortByKeyDesc (fun p => p.1.expiry.getD 0) (withExpiry (withOrder 0 g)) ++
   sortByKeyAsc (fun p => p.2) (fallbackTier (withOrder 0 g))).map Prod.fst

/-- `custom_rank` (lines 313-335): the reordered group with the dense rank
column 1..N. -/
def custom_rank (g : List ARow) : List (ARow × Nat) :=
  assignRanks 1 (reorder g)

/-- Quality filter of lines 581-584:
`(max_name_similarity >= 50 or name_similarity_final >= 80) and
coa_sufficient_content >= 8`; a missing sufficiency score compares as false
(pandas NaN comparison). -/
def qualityFilter (rows : List ARow) : List ARow :=
  rows.filter (fun r =>
    (decide (50 ≤ r.maxSim) || decide (80 ≤ r.simFinal))
      && r.suff.elim false (fun s => decide ((8 : Int) ≤ s)))

/-- Distinct non-null entity codes of the filtered rows: pandas `groupby`
keys, null keys excluded. -/
def exportKeys (rows : List ARow) : List String :=
  (rows.filterMap ARow.code).dedup

/-- The group of a key: the filtered rows carrying that code, in arrival
order. -/
def groupOf (rows : List ARow) (c : String) : List ARow :=
  rows.filter (fun r => decide (r.code = some c))

/-- `groupby('rm_id_final', group_keys=False).apply(custom_rank)`
(line 587): concatenation of the per-group ranked rows. -/
def rankedRows (rows : List ARow) : List (ARow × Nat) :=
  (exportKeys rows).flatMap (fun c => custom_rank (groupOf rows c))

/-- The final export (lines 581-597): quality filter, per-entity ranking,
then keep the rank-1 rows. -/
def exportOf (rows : List ARow) : List ARow :=
  ((rankedRows (qualityFilter rows)).filter (fun p => decide (p.2 = 1))).map Prod.fst


/-! ## Claim C4: chemical extraction priority order. -/

/-- C4: for every chemical category whose pattern matches some test entry,
extraction considers only the first matching entry and returns, in order, the
first number in its result field, else the first number in its limit field,
else 0.0 when the result carries a qualitative negative marker, else null —
never a guessed value. -/
theorem extract_chem_info_priority_order (pat : String → Bool) (l : List TestEntry)
    (e : TestEntry) (hfind : l.find? (fun item => pat item.test) = some e) :
    extract_chem_info pat l = extract_chem_info pat [e] ∧
    (∀ t, firstNumToken e.result = some t →
      extract_chem_info pat l = some (ratOfToken t)) ∧
    (firstNumToken e.result = none → ∀ t, firstNumToken e.limit = some t →
      extract_chem_info pat l = some (ratOfToken t)) ∧
    (firstNumToken e.result = none → firstNumToken e.limit = none →
      hasNegMarker e.result = true → extract_chem_info pat l = some 0) ∧
    (firstNumToken e.result = none → firstNumToken e.limit = none →
      hasNegMarker e.result = false → extract_chem_info pat l = none) := by
  have hp := List.find?_some hfind
  have h1 : List.find? (fun item => pat item.test) [e] = some e :=
    List.find?_cons_of_pos _ hp
  refine ⟨?_, ?_, ?_, ?_, ?_⟩
  · simp only [extract_chem_info, hfind, h1]
  · intro t ht
    simp only [extract_chem_info, hfind, ht]
  · intro hr t hl2
    simp only [extract_chem_info, hfind, hr, hl2]
  · intro hr hl2 hm
    simp [extract_chem_info, hfind, hr, hl2, hm]
  · intro hr hl2 hm
    simp [extract_chem_info, hfind, hr, hl2, hm]

/-- Witness for C4 at a concrete entry with a numeric result field. -/
theorem extract_chem_info_priority_order_witness :
    List.find? (fun item => (fun t => t == "Lead") item.test)
        [(⟨"Lead", "2.3 ppm", "5 ppm"⟩ : TestEntry)] = some ⟨"Lead", "2.3 ppm", "5 ppm"⟩ ∧
    extract_chem_info (fun t => t == "Lead")
        [(⟨"Lead", "2.3 ppm", "5 ppm"⟩ : TestEntry)] = some (ratOfToken "2.3") :=
  ⟨by decide,
    (extract_chem_info_priority_order (fun t => t == "Lead")
      [(⟨"Lead", "2.3 ppm", "5 ppm"⟩ : TestEntry)] ⟨"Lead", "2.3 ppm", "5 ppm"⟩
      (by decide)).2.1 "2.3" (by decide)⟩

/-! ## Claim C5: microbial extraction and the limit field. -/

/-- C5 counterexample: a matching microbial entry whose result field holds no
extractable number and whose limit field holds the number 10; the claim says
10 is extracted from the limit, but `extract_micro_info` never reads the
limit and returns null. -/
theorem extract_micro_info_ignores_limit_cex :
    firstNumToken (TestEntry.result ⟨"E coli", "", "10"⟩) = none ∧
    firstNumToken (TestEntry.limit ⟨"E coli", "", "10"⟩) = some "10" ∧
    extract_micro_info (fun t => t == "E coli")
      [(⟨"E coli", "", "10"⟩ : TestEntry)] = none ∧
    (none : Option Rat) ≠ some (ratOfToken "10") := by
  exact ⟨by decide, by decide, by decide, by decide⟩

/-- C5 amended: for every microbial category, only the result field is
consulted — the value is the first number directly preceding "cfu" in the
result, else 0.0 on a qualitative negative marker, else null; the limit field
is never read. -/
theorem extract_micro_info_result_only (pat : String → Bool) (l : List TestEntry)
    (e : TestEntry) (hfind : l.find? (fun item => pat item.test) = some e) :
    (∀ t, numBeforeCfu e.result = some t →
      extract_micro_info pat l = some (ratOfToken t)) ∧
    (numBeforeCfu e.result = none → hasNegMarker e.result = true →
      extract_micro_info pat l = some 0) ∧
    (numBeforeCfu e.result = none → hasNegMarker e.result = false →
      extract_micro_info pat l = none) ∧
    (∀ lim : TestEntry → String,
      extract_micro_info pat (l.map (fun x => ⟨x.test, x.result, lim x⟩)) =
        extract_micro_info pat l) := by
  refine ⟨?_, ?_, ?_, ?_⟩
  · intro t ht
    simp only [extract_micro_info, hfind, ht]
  · intro hr hm
    simp [extract_micro_info, hfind, hr, hm]
  · intro hr hm
    simp [extract_micro_info, hfind, hr, hm]
  · intro lim
    have hmap : List.find? (fun item => pat item.test)
        (l.map (fun x => (⟨x.test, x.result, lim x⟩ : TestEntry))) =
        Option.map (fun x => (⟨x.test, x.result, lim x⟩ : TestEntry))
          (List.find? (fun item => pat item.test) l) := by
      rw [List.find?_map]
      rfl
    cases hf : List.find? (fun item => pat item.test) l with
    | none =>
      simp [extract_micro_info, hmap, hf]
    | some e0 =>
      simp only [extract_micro_info, hmap, hf, Option.map_some]
      rfl

/-- Witness for C5 amended, at a concrete entry with a cfu-qualified count. -/
theorem extract_micro_info_result_only_witness :
    List.find? (fun item => (fun t => t == "E coli") item.test)
        [(⟨"E coli", "< 10 cfu/g", "100"⟩ : TestEntry)] =
      some ⟨"E coli", "< 10 cfu/g", "100"⟩ ∧
    extract_micro_info (fun t => t == "E coli")
        [(⟨"E coli", "< 10 cfu/g", "100"⟩ : TestEntry)] = some (ratOfToken "10") :=
  ⟨by decide,
    (extract_micro_info_result_only (fun t => t == "E coli")
      [(⟨"E coli", "< 10 cfu/g", "100"⟩ : TestEntry)] ⟨"E coli", "< 10 cfu/g", "100"⟩
      (by decide)).1 "10" (by decide)⟩

/-! ## Claim C6: fuzzy fallback picks the strictly best catalog entry,
first-listed winning ties. -/

/-- The best score tracked by `findBestAux` is the running maximum of the
initial best and all scores seen. -/
theorem findBestAux_fold (f : RMEntry → Nat) :
    ∀ (l : List RMEntry) (b : Int) (r : Option RMEntry),
      (findBestAux f l b r).1 = l.foldl (fun acc e => max acc (f e : Int)) b := by
  intro l
  induction l with
  | nil => intro b r; rfl
  | cons e rest ih =>
    intro b r
    simp only [findBestAux, List.foldl_cons]
    by_cases hc : (f e : Int) > b
    · rw [if_pos hc, ih, max_eq_right (le_of_lt hc)]
    · rw [if_neg hc, ih, max_eq_left (le_of_not_lt hc)]

/-- The running maximum dominates its initial value. -/
theorem foldl_max_init_le (f : RMEntry → Nat) :
    ∀ (l : List RMEntry) (b : Int),
      b ≤ l.foldl (fun acc e => max acc (f e : Int)) b := by
  intro l
  induction l with
  | nil => intro b; exact le_refl b
  | cons e rest ih =>
    intro b
    simp only [List.foldl_cons]
    exact le_trans (le_max_left _ _) (ih _)

/-- The running maximum dominates every score in the list. -/
theorem foldl_max_mem_le (f : RMEntry → Nat) :
    ∀ (l : List RMEntry) (b : Int) (x : RMEntry), x ∈ l →
      (f x : Int) ≤ l.foldl (fun acc e => max acc (f e : Int)) b := by
  intro l
  induction l with
  | nil => intro b x hx; cases hx
  | cons e rest ih =>
    intro b x hx
    simp only [List.foldl_cons]
    rcases List.mem_cons.1 hx with hh | hh
    · rw [hh]
      exact le_trans (le_max_right _ _) (foldl_max_init_le f rest _)
    · exact ih _ x hh

/-- Loop invariant of `findBestAux`: either nothing beat the initial best and
the initial row is returned unchanged, or the returned row is the first list
element attaining the final best score, every earlier element scoring
strictly below it. -/
theorem findBestAux_spec (f : RMEntry → Nat) :
    ∀ (l : List RMEntry) (b : Int) (r : Option RMEntry),
      ((findBestAux f l b r).1 = b ∧ (findBestAux f l b r).2 = r) ∨
      ((findBestAux f l b r).1 > b ∧ ∃ i : Fin l.length,
        (findBestAux f l b r).2 = some (l.get i) ∧
        ((f (l.get i) : Int) = (findBestAux f l b r).1) ∧
        ∀ j : Fin l.length, j < i → (f (l.get j) : Int) < (findBestAux f l b r).1) := by
  intro l
  induction l with
  | nil => intro b r; exact Or.inl ⟨rfl, rfl⟩
  | cons e rest ih =>
    intro b r
    by_cases hc : (f e : Int) > b
    · have hx : findBestAux f (e :: rest) b r = findBestAux f rest (f e) (some e) := by
        simp only [findBestAux, if_pos hc]
      rcases ih (f e) (some e) with ⟨h1, h2⟩ | ⟨hgt, i, h2, h3, h4⟩
      · right
        rw [hx]
        refine ⟨by rw [h1]; exact hc, ⟨0, Nat.succ_pos rest.length⟩, h2, ?_, ?_⟩
        · rw [h1]
          rfl
        · intro j hj
          exact absurd hj (Nat.not_lt_zero j.val)
      · right
        rw [hx]
        refine ⟨lt_trans hc hgt, ⟨i.val + 1, Nat.succ_lt_succ i.isLt⟩, h2, h3, ?_⟩
        intro j hj
        rcases j with ⟨jv, hjv⟩
        cases jv with
        | zero => exact hgt
        | succ jv2 =>
          exact h4 ⟨jv2, Nat.lt_of_succ_lt_succ hjv⟩ (Nat.lt_of_succ_lt_succ hj)
    · have hx : findBestAux f (e :: rest) b r = findBestAux f rest b r := by
        simp only [findBestAux, if_neg hc]
      rcases ih b r with ⟨h1, h2⟩ | ⟨hgt, i, h2, h3, h4⟩
      · left
        rw [hx]
        exact ⟨h1, h2⟩
      · right
        rw [hx]
        refine ⟨hgt, ⟨i.val + 1, Nat.succ_lt_succ i.isLt⟩, h2, h3, ?_⟩
        intro j hj
        rcases j with ⟨jv, hjv⟩
        cases jv with
        | zero => exact lt_of_le_of_lt (le_of_not_lt hc) hgt
        | succ jv2 =>
          exact h4 ⟨jv2, Nat.lt_of_succ_lt_succ hjv⟩ (Nat.lt_of_succ_lt_succ hj)

/-- C6: for every non-empty catalog and product name, `find_best_match`
selects the entry whose token-set similarity is greatest, and among entries
sharing the maximal score the first-listed entry wins (every earlier entry
scores strictly lower). -/
theorem find_best_match_first_argmax (simScore : String → String → Nat)
    (name : String) (l : List RMEntry) (hl : l ≠ []) :
    ∃ i : Fin l.length,
      (find_best_match simScore name l).2 = some (l.get i) ∧
      (find_best_match simScore name l).1 = (simScore name (l.get i).description : Int) ∧
      (∀ e ∈ l, simScore name e.description ≤ simScore name (l.get i).description) ∧
      ∀ j : Fin l.length, j < i →
        simScore name (l.get j).description < simScore name (l.get i).description := by
  have hfb : find_best_match simScore name l =
      findBestAux (fun e => simScore name e.description) l (-1) none := rfl
  rcases findBestAux_spec (fun e => simScore name e.description) l (-1) none with
    ⟨h1, _⟩ | ⟨_, i, h2, h3, h4⟩
  · exfalso
    rcases l with _ | ⟨a, t⟩
    · exact hl rfl
    · have hh := foldl_max_mem_le (fun e => simScore name e.description) (a :: t) (-1) a
        (List.mem_cons_self a t)
      have hfold := findBestAux_fold (fun e => simScore name e.description) (a :: t) (-1) none
      rw [h1] at hfold
      rw [← hfold] at hh
      have h0 : (0 : Int) ≤ (simScore name a.description : Int) := Int.natCast_nonneg _
      have hcontra := le_trans h0 hh
      norm_num at hcontra
  · refine ⟨i, ?_, ?_, ?_, ?_⟩
    · rw [hfb]
      exact h2
    · rw [hfb]
      exact h3.symm
    · intro e he
      have hm := foldl_max_mem_le (fun x => simScore name x.description) l (-1) e he
      rw [← findBestAux_fold (fun x => simScore name x.description) l (-1) none] at hm
      rw [← h3] at hm
      exact_mod_cast hm
    · intro j hj
      have hlt := h4 j hj
      rw [← h3] at hlt
      exact_mod_cast hlt

/-- Witness for C6 at a two-entry catalog where the second entry scores
strictly higher. -/
theorem find_best_match_first_argmax_witness :
    ∃ i : Fin (([⟨"p1", "ab"⟩, ⟨"p2", "abcd"⟩] : List RMEntry)).length,
      (find_best_match (fun _ d => d.length) "x" [⟨"p1", "ab"⟩, ⟨"p2", "abcd"⟩]).2 =
        some (([⟨"p1", "ab"⟩, ⟨"p2", "abcd"⟩] : List RMEntry).get i) ∧
      (find_best_match (fun _ d => d.length) "x" [⟨"p1", "ab"⟩, ⟨"p2", "abcd"⟩]).1 =
        ((([⟨"p1", "ab"⟩, ⟨"p2", "abcd"⟩] : List RMEntry).get i).description.length : Int) ∧
      (∀ e ∈ ([⟨"p1", "ab"⟩, ⟨"p2", "abcd"⟩] : List RMEntry),
        e.description.length ≤
          (([⟨"p1", "ab"⟩, ⟨"p2", "abcd"⟩] : List RMEntry).get i).description.length) ∧
      ∀ j : Fin (([⟨"p1", "ab"⟩, ⟨"p2", "abcd"⟩] : List RMEntry)).length, j < i →
        (([⟨"p1", "ab"⟩, ⟨"p2", "abcd"⟩] : List RMEntry).get j).description.length <
          (([⟨"p1", "ab"⟩, ⟨"p2", "abcd"⟩] : List RMEntry).get i).description.length :=
  find_best_match_first_argmax (fun _ d => d.length) "x"
    [⟨"p1", "ab"⟩, ⟨"p2", "abcd"⟩] (by decide)

/-! ## Claim C7: the fuzzy fallback is used exactly when the per-document
maximal exact-match similarity is zero. -/

/-- C7: on a rank-1 row (whose row similarity `max ns1 ns2` equals the
per-document maximum `maxSim`), the fallback code/score pair (`c3`, `ns3`) is
selected if and only if `maxSim` is exactly zero; any nonzero value routes
the selection to one of the exact-match candidates. -/
theorem fallback_used_iff_zero_max_similarity (ns1 ns2 maxSim ns3 : Nat)
    (c1 c2 c3 : Option String) (_h : maxSim = max ns1 ns2) :
    (maxSim = 0 →
      rm_id_final ns1 ns2 maxSim c1 c2 c3 = c3 ∧
      name_similarity_final maxSim ns3 = ns3) ∧
    (maxSim ≠ 0 →
      ((ns1 = max ns1 ns2 ∧ rm_id_final ns1 ns2 maxSim c1 c2 c3 = c1) ∨
       (ns2 = max ns1 ns2 ∧ rm_id_final ns1 ns2 maxSim c1 c2 c3 = c2)) ∧
      name_similarity_final maxSim ns3 = maxSim) := by
  constructor
  · intro h0
    constructor
    · simp [rm_id_final, h0]
    · simp [name_similarity_final, h0]
  · intro h0
    constructor
    · by_cases h1 : ns1 = max ns1 ns2
      · left
        refine ⟨h1, ?_⟩
        simp only [rm_id_final]
        rw [if_pos ⟨h0, h1⟩]
      · right
        have h2 : ns2 = max ns1 ns2 := by
          rcases max_choice ns1 ns2 with hc | hc
          · exact absurd hc.symm h1
          · exact hc.symm
        refine ⟨h2, ?_⟩
        have h1x : ¬(maxSim ≠ 0 ∧ ns1 = max ns1 ns2) := fun hx => h1 hx.2
        simp only [rm_id_final]
        rw [if_neg h1x, if_pos ⟨h0, h2⟩]
    · simp [name_similarity_final, h0]

/-- Witness for C7 at a zero maximal exact similarity: the fallback pair is
selected. -/
theorem fallback_used_iff_zero_max_similarity_witness :
    rm_id_final 0 0 0 (some "a") (some "b") (some "c") = some "c" ∧
    name_similarity_final 0 42 = 42 :=
  (fallback_used_iff_zero_max_similarity 0 0 0 42 (some "a") (some "b") (some "c")
    (by decide)).1 (by decide)

/-! ## Claim C8: candidate-row cross set and the per-document winner. -/

/-- Loop invariant of the per-document winner: the result is the running best
or a list member, its score dominates both the running best and every list
member. -/
theorem docWinnerAux_spec {α : Type} (f : α → Nat) :
    ∀ (l : List α) (b : α),
      docWinnerAux f l b ∈ b :: l ∧
      f b ≤ f (docWinnerAux f l b) ∧
      ∀ r ∈ l, f r ≤ f (docWinnerAux f l b) := by
  intro l
  induction l with
  | nil =>
    intro b
    exact ⟨List.mem_cons_self b [], le_refl _, by intro r hr; cases hr⟩
  | cons x rest ih =>
    intro b
    have hx : docWinnerAux f (x :: rest) b =
        docWinnerAux f rest (if f x > f b then x else b) := rfl
    obtain ⟨hmem, hble, hall⟩ := ih (if f x > f b then x else b)
    have hb2 : f b ≤ f (if f x > f b then x else b) := by
      by_cases hc : f x > f b
      · rw [if_pos hc]; exact le_of_lt hc
      · rw [if_neg hc]
    have hx2 : f x ≤ f (if f x > f b then x else b) := by
      by_cases hc : f x > f b
      · rw [if_pos hc]
      · rw [if_neg hc]; exact le_of_not_lt hc
    refine ⟨?_, ?_, ?_⟩
    · rw [hx]
      rcases List.mem_cons.1 hmem with hh | hh
      · rw [hh]
        by_cases hc : f x > f b
        · rw [if_pos hc]
          exact List.mem_cons_of_mem b (List.mem_cons_self x rest)
        · rw [if_neg hc]
          exact List.mem_cons_self b (x :: rest)
      · exact List.mem_cons_of_mem b (List.mem_cons_of_mem x hh)
    · rw [hx]
      exact le_trans hb2 hble
    · intro r hr
      rw [hx]
      rcases List.mem_cons.1 hr with hh | hh
      · rw [hh]
        exact le_trans hx2 hble
      · exact hall r hh

/-- Size of the cross set: one row per (lot, m-number) pair. -/
theorem candidateRows_length (lots ms : List String) :
    (candidateRows lots ms).length = lots.length * ms.length := by
  induction lots with
  | nil => simp [candidateRows]
  | cons a t ih =>
    simp only [candidateRows, List.flatMap_cons, List.length_append, List.length_map,
      List.length_cons] at ih ⊢
    rw [ih]
    ring

/-- C8 counterexample: a document with two lot-number candidates and one
filename M-number candidate generates 2 candidate rows, not 3 as claimed. -/
theorem candidate_rows_two_by_one_cex :
    (candidateRows ["M1111", "M2222"] ["M3333"]).length = 2 ∧
    (candidateRows ["M1111", "M2222"] ["M3333"]).length ≠ 3 := by
  exact ⟨by decide, by decide⟩

/-- C8 amended: the cross set has `|lots| * |ms|` rows (2 times 1 = 2 rows for
two lot candidates and one filename candidate), and the document's final
winner is the single highest-confidence row among them. -/
theorem candidate_rows_cross_count_winner (lots ms : List String)
    (f : String × String → Nat) (hl : lots ≠ []) (hm : ms ≠ []) :
    (candidateRows lots ms).length = lots.length * ms.length ∧
    ∃ w, docWinner f (candidateRows lots ms) = some w ∧
      w ∈ candidateRows lots ms ∧
      ∀ r ∈ candidateRows lots ms, f r ≤ f w := by
  constructor
  · exact candidateRows_length lots ms
  · have hne : candidateRows lots ms ≠ [] := by
      rcases lots with _ | ⟨a, t⟩
      · exact absurd rfl hl
      · rcases ms with _ | ⟨m, s⟩
        · exact absurd rfl hm
        · simp [candidateRows]
    rcases hrows : candidateRows lots ms with _ | ⟨r0, rest⟩
    · exact absurd hrows hne
    · obtain ⟨hmem, _, hall⟩ := docWinnerAux_spec f rest r0
      refine ⟨docWinnerAux f rest r0, rfl, hmem, ?_⟩
      intro r hr
      rcases List.mem_cons.1 hr with hh | hh
      · obtain ⟨_, hble, _⟩ := docWinnerAux_spec f rest r0
        exact hh ▸ hble
      · exact hall r hh

/-- Witness for C8 amended at two lot candidates and one filename
candidate. -/
theorem candidate_rows_cross_count_winner_witness :
    (candidateRows ["M1111", "M2222"] ["M3333"]).length =
      (["M1111", "M2222"] : List String).length * (["M3333"] : List String).length ∧
    ∃ w, docWinner (fun p => p.1.length) (candidateRows ["M1111", "M2222"] ["M3333"])
        = some w ∧
      w ∈ candidateRows ["M1111", "M2222"] ["M3333"] ∧
      ∀ r ∈ candidateRows ["M1111", "M2222"] ["M3333"],
        (fun p : String × String => p.1.length) r ≤ (fun p : String × String => p.1.length) w :=
  candidate_rows_cross_count_winner ["M1111", "M2222"] ["M3333"]
    (fun p => p.1.length) (by decide) (by decide)

/-! ## Claim C9: unparsable envelopes. -/

/-- C9 counterexample: with both parsers failing on the cell text, the
document is not excluded from matching — `safe_parse` yields the empty
envelope, the lot list degrades to the sentinel, and the document still
produces a candidate row (and no reason is recorded anywhere). -/
theorem unparsable_envelope_not_excluded_cex :
    safe_parse (fun _ => none) (fun _ => none) (some "not json") = emptyEnv ∧
    lotCandidates (safe_parse (fun _ => none) (fun _ => none) (some "not json")) = ["0"] ∧
    candidateRows
        (lotCandidates (safe_parse (fun _ => none) (fun _ => none) (some "not json")))
        ["0"] = [("0", "0")] ∧
    candidateRows
        (lotCandidates (safe_parse (fun _ => none) (fun _ => none) (some "not json")))
        ["0"] ≠ [] := by
  exact ⟨by decide, by decide, by decide, by decide⟩

/-- C9 amended: envelope-parse failure is never fatal — `safe_parse` is total
and returns the empty envelope when both parsers fail — and the document is
not excluded: its lot list becomes the sentinel and it still yields one
candidate row per filename M-number candidate. -/
theorem safe_parse_sentinel_flow (jp ap : String → Option Env) (c : String)
    (hj : jp (preprocessCell c) = none) (ha : ap (preprocessCell c) = none) :
    safe_parse jp ap (some c) = emptyEnv ∧
    lotCandidates (safe_parse jp ap (some c)) = ["0"] ∧
    ∀ ms : List String,
      candidateRows (lotCandidates (safe_parse jp ap (some c))) ms =
        ms.map (fun m => ("0", m)) := by
  have h0 : safe_parse jp ap (some c) = emptyEnv := by
    simp [safe_parse, hj, ha]
  refine ⟨h0, ?_, ?_⟩
  · rw [h0]
    rfl
  · intro ms
    rw [h0]
    simp [candidateRows, lotCandidates, emptyEnv]

/-- Witness for C9 amended at a concrete unparsable cell. -/
theorem safe_parse_sentinel_flow_witness :
    safe_parse (fun _ => none) (fun _ => none) (some "garbage text") = emptyEnv ∧
    lotCandidates (safe_parse (fun _ => none) (fun _ => none) (some "garbage text")) = ["0"] ∧
    ∀ ms : List String,
      candidateRows
          (lotCandidates (safe_parse (fun _ => none) (fun _ => none) (some "garbage text")))
          ms = ms.map (fun m => ("0", m)) :=
  safe_parse_sentinel_flow (fun _ => none) (fun _ => none) "garbage text" rfl rfl

/-! ## Helper lemmas for the per-entity ranking and export stage. -/

/-- Dropping the order column recovers the group. -/
theorem withOrder_map_fst : ∀ (n : Nat) (l : List ARow), (withOrder n l).map Prod.fst = l := by
  intro n l
  induction l generalizing n with
  | nil => rfl
  | cons r t ih => simp [withOrder, ih]

/-- A member of the ordered group is a member of the group. -/
theorem mem_withOrder_fst {n : Nat} {l : List ARow} {p : ARow × Nat}
    (h : p ∈ withOrder n l) : p.1 ∈ l := by
  have h2 := List.mem_map_of_mem Prod.fst h
  rwa [withOrder_map_fst] at h2

/-- Every group member is carried by the ordered group. -/
theorem mem_withOrder_exists {l : List ARow} {r : ARow} (h : r ∈ l) :
    ∀ n, ∃ k, (r, k) ∈ withOrder n l := by
  induction l with
  | nil => cases h
  | cons a t ih =>
    intro n
    rcases List.mem_cons.1 h with hh | hh
    · refine ⟨n, ?_⟩
      rw [hh]
      exact List.mem_cons_self _ _
    · obtain ⟨k, hk⟩ := ih hh (n + 1)
      exact ⟨k, List.mem_cons_of_mem _ hk⟩

/-- Order values start at the counter. -/
theorem mem_withOrder_snd_le : ∀ (n : Nat) (l : List ARow) (p : ARow × Nat),
    p ∈ withOrder n l → n ≤ p.2 := by
  intro n l
  induction l generalizing n with
  | nil => intro p hp; cases hp
  | cons a t ih =>
    intro p hp
    rcases List.mem_cons.1 hp with hh | hh
    · rw [hh]
    · exact le_trans (Nat.le_succ n) (ih (n + 1) p hh)

/-- The order column is strictly increasing. -/
theorem withOrder_pairwise : ∀ (n : Nat) (l : List ARow),
    (withOrder n l).Pairwise (fun a b => a.2 < b.2) := by
  intro n l
  induction l generalizing n with
  | nil => exact List.Pairwise.nil
  | cons a t ih =>
    refine List.Pairwise.cons ?_ (ih (n + 1))
    intro p hp
    exact lt_of_lt_of_le (Nat.lt_succ_self n) (mem_withOrder_snd_le (n + 1) t p hp)

/-- Dropping the rank column recovers the reordered group. -/
theorem assignRanks_map_fst : ∀ (n : Nat) (l : List ARow),
    (assignRanks n l).map Prod.fst = l := by
  intro n l
  induction l generalizing n with
  | nil => rfl
  | cons r t ih => simp [assignRanks, ih]

/-- A ranked member is a member of the reordered group. -/
theorem mem_assignRanks_fst {n : Nat} {l : List ARow} {p : ARow × Nat}
    (h : p ∈ assignRanks n l) : p.1 ∈ l := by
  have h2 := List.mem_map_of_mem Prod.fst h
  rwa [assignRanks_map_fst] at h2

/-- No rank below the starting counter occurs. -/
theorem assignRanks_filter_lt : ∀ (l : List ARow) (n m : Nat), m < n →
    (assignRanks n l).filter (fun p => decide (p.2 = m)) = [] := by
  intro l
  induction l with
  | nil => intro n m h; rfl
  | cons a t ih =>
    intro n m h
    have hdec : (decide (((a, n) : ARow × Nat).2 = m)) = false := decide_eq_false (ne_of_gt h)
    rw [show assignRanks n (a :: t) = (a, n) :: assignRanks (n + 1) t from rfl]
    rw [List.filter_cons_of_neg]
    · exact ih (n + 1) m (lt_trans h (Nat.lt_succ_self n))
    · rw [hdec]
      exact Bool.false_ne_true

/-- Exactly the head row carries rank 1. -/
theorem assignRanks_filter_one (w : ARow) (t : List ARow) :
    ((assignRanks 1 (w :: t)).filter (fun p => decide (p.2 = 1))).map Prod.fst = [w] := by
  have h2 : (assignRanks 1 (w :: t)).filter (fun p => decide (p.2 = 1)) =
      (w, 1) :: (assignRanks 2 t).filter (fun p => decide (p.2 = 1)) := by
    rw [show assignRanks 1 (w :: t) = (w, 1) :: assignRanks 2 t from rfl]
    simp [List.filter_cons]
  rw [h2, assignRanks_filter_lt t 2 1 Nat.one_lt_two]
  rfl

/-- Descending sort is a permutation. -/
theorem sortByKeyDesc_perm {β : Type} (key : β → Nat) (l : List β) :
    (sortByKeyDesc key l).Perm l :=
  List.perm_insertionSort _ l

/-- Ascending sort is a permutation. -/
theorem sortByKeyAsc_perm {β : Type} (key : β → Nat) (l : List β) :
    (sortByKeyAsc key l).Perm l :=
  List.perm_insertionSort _ l

/-- Descending sort is sorted by nonincreasing key. -/
theorem sortByKeyDesc_sorted {β : Type} (key : β → Nat) (l : List β) :
    List.Sorted (fun a b => key b ≤ key a) (sortByKeyDesc key l) := by
  haveI h1 : IsTotal β (fun a b => key b ≤ key a) := ⟨fun a b => le_total (key b) (key a)⟩
  haveI h2 : IsTrans β (fun a b => key b ≤ key a) := ⟨fun a b c hab hbc => le_trans hbc hab⟩
  exact List.sorted_insertionSort _ l

/-- Sorting an already ascending list is the identity. -/
theorem sortByKeyAsc_eq_of_sorted {β : Type} (key : β → Nat) (l : List β)
    (h : l.Pairwise (fun a b => key a ≤ key b)) : sortByKeyAsc key l = l :=
  List.Sorted.insertionSort_eq h

/-- The head of a descending sort dominates every key of the list. -/
theorem sortByKeyDesc_head_max {β : Type} (key : β → Nat) (l : List β)
    (a : β) (t : List β) (h : sortByKeyDesc key l = a :: t) :
    ∀ x ∈ l, key x ≤ key a := by
  intro x hx
  have hmem : x ∈ a :: t := by
    rw [← h]
    exact ((sortByKeyDesc_perm key l).mem_iff).2 hx
  rcases List.mem_cons.1 hmem with hh | hh
  · rw [hh]
  · have hs := sortByKeyDesc_sorted key l
    rw [h] at hs
    exact List.rel_of_sorted_cons hs x hh

/-- The three tiers partition the ordered group. -/
theorem tiers_perm : ∀ (gi : List (ARow × Nat)),
    (withMfg gi ++ withExpiry gi ++ fallbackTier gi).Perm gi := by
  intro gi
  induction gi with
  | nil => rfl
  | cons x t ih =>
    rcases hm : x.1.mfg with _ | d
    · rcases he : x.1.expiry with _ | d2
      · have e1 : withMfg (x :: t) = withMfg t := by
          simp [withMfg, List.filter_cons, hm]
        have e2 : withExpiry (x :: t) = withExpiry t := by
          simp [withExpiry, List.filter_cons, hm, he]
        have e3 : fallbackTier (x :: t) = x :: fallbackTier t := by
          simp [fallbackTier, List.filter_cons, hm, he]
        rw [e1, e2, e3]
        exact List.perm_middle.trans (ih.cons x)
      · have e1 : withMfg (x :: t) = withMfg t := by
          simp [withMfg, List.filter_cons, hm]
        have e2 : withExpiry (x :: t) = x :: withExpiry t := by
          simp [withExpiry, List.filter_cons, hm, he]
        have e3 : fallbackTier (x :: t) = fallbackTier t := by
          simp [fallbackTier, List.filter_cons, hm, he]
        rw [e1, e2, e3, List.append_assoc]
        refine List.Perm.trans ?_ (ih.cons x)
        rw [show (x :: withExpiry t) ++ fallbackTier t = x :: (withExpiry t ++ fallbackTier t)
          from rfl]
        refine List.perm_middle.trans ?_
        rw [List.append_assoc]
    · have e1 : withMfg (x :: t) = x :: withMfg t := by
        simp [withMfg, List.filter_cons, hm]
      have e2 : withExpiry (x :: t) = withExpiry t := by
        simp [withExpiry, List.filter_cons, hm]
      have e3 : fallbackTier (x :: t) = fallbackTier t := by
        simp [fallbackTier, List.filter_cons, hm]
      rw [e1, e2, e3]
      rw [show (x :: withMfg t) ++ withExpiry t ++ fallbackTier t =
        x :: (withMfg t ++ withExpiry t ++ fallbackTier t) from rfl]
      exact ih.cons x

/-- The reordered group is a permutation of the group. -/
theorem reorder_perm (g : List ARow) : (reorder g).Perm g := by
  have h1 : (sortByKeyDesc (fun p => p.1.mfg.getD 0) (withMfg (withOrder 0 g)) ++
      sortByKeyDesc (fun p => p.1.expiry.getD 0) (withExpiry (withOrder 0 g)) ++
      sortByKeyAsc (fun p => p.2) (fallbackTier (withOrder 0 g))).Perm
      (withMfg (withOrder 0 g) ++ withExpiry (withOrder 0 g) ++
        fallbackTier (withOrder 0 g)) :=
    ((sortByKeyDesc_perm _ _).append (sortByKeyDesc_perm _ _)).append (sortByKeyAsc_perm _ _)
  have h3 := (h1.trans (tiers_perm (withOrder 0 g))).map Prod.fst
  rw [withOrder_map_fst] at h3
  exact h3

/-- A non-empty group reorders to a non-empty list. -/
theorem reorder_ne_nil {g : List ARow} (hg : g ≠ []) : reorder g ≠ [] := by
  intro h
  apply hg
  have hp := reorder_perm g
  rw [h] at hp
  exact hp.symm.eq_nil

/-- The rank-1 selection of a ranked group is its reordered head. -/
theorem custom_rank_rank1_eq (g : List ARow) (w : ARow) (t : List ARow)
    (hre : reorder g = w :: t) :
    ((custom_rank g).filter (fun p => decide (p.2 = 1))).map Prod.fst = [w] := by
  unfold custom_rank
  rw [hre]
  exact assignRanks_filter_one w t

/-- Filter and map distribute over flatMap. -/
theorem filter_map_flatMap {β γ δ : Type} (ks : List β) (gfun : β → List γ)
    (p : γ → Bool) (f : γ → δ) :
    ((ks.flatMap gfun).filter p).map f =
      ks.flatMap (fun k => ((gfun k).filter p).map f) := by
  induction ks with
  | nil => rfl
  | cons k t ih =>
    simp only [List.flatMap_cons, List.filter_append, List.map_append, ih]

/-- The export is the per-key concatenation of rank-1 selections. -/
theorem exportOf_eq (rows : List ARow) :
    exportOf rows = (exportKeys (qualityFilter rows)).flatMap
      (fun c => ((custom_rank (groupOf (qualityFilter rows) c)).filter
        (fun p => decide (p.2 = 1))).map Prod.fst) := by
  unfold exportOf rankedRows
  exact filter_map_flatMap _ _ _ _

/-- Export keys are exactly the non-null codes of the rows. -/
theorem mem_exportKeys {rows : List ARow} {c : String} :
    c ∈ exportKeys rows ↔ ∃ r ∈ rows, r.code = some c := by
  unfold exportKeys
  rw [List.mem_dedup, List.mem_filterMap]

/-- Group membership unfolds to row membership plus the code equation. -/
theorem mem_groupOf {rows : List ARow} {c : String} {r : ARow} :
    r ∈ groupOf rows c ↔ r ∈ rows ∧ r.code = some c := by
  unfold groupOf
  rw [List.mem_filter]
  simp

/-- Groups of export keys are non-empty. -/
theorem groupOf_ne_nil {rows : List ARow} {c : String} (hc : c ∈ exportKeys rows) :
    groupOf rows c ≠ [] := by
  obtain ⟨r, hr, hcode⟩ := mem_exportKeys.1 hc
  exact List.ne_nil_of_mem (mem_groupOf.2 ⟨hr, hcode⟩)

/-- Each export key contributes exactly one row, a member of its group. -/
theorem group_winner (rows : List ARow) (c : String) (hc : c ∈ exportKeys rows) :
    ∃ w, ((custom_rank (groupOf rows c)).filter
        (fun p => decide (p.2 = 1))).map Prod.fst = [w] ∧
      w ∈ groupOf rows c := by
  have hrne := reorder_ne_nil (groupOf_ne_nil hc)
  rcases hre : reorder (groupOf rows c) with _ | ⟨w, t⟩
  · exact absurd hre hrne
  · refine ⟨w, custom_rank_rank1_eq _ w t hre, ?_⟩
    have hw : w ∈ reorder (groupOf rows c) := by
      rw [hre]
      exact List.mem_cons_self _ _
    exact ((reorder_perm _).mem_iff).1 hw

/-- Counting a code over a flatMap of per-key singleton winners. -/
theorem countP_flatMap_singletons (c : String) :
    ∀ (ks : List String) (G : String → List ARow),
      (∀ k ∈ ks, ∃ w, G k = [w] ∧ w.code = some k) → ks.Nodup →
      (ks.flatMap G).countP (fun r => decide (r.code = some c)) =
        if c ∈ ks then 1 else 0 := by
  intro ks
  induction ks with
  | nil => intro G hG hd; simp
  | cons k t ih =>
    intro G hG hnd
    obtain ⟨w, hw, hwc⟩ := hG k (List.mem_cons_self k t)
    have hnd2 := List.nodup_cons.1 hnd
    rw [List.flatMap_cons, List.countP_append, hw,
      ih G (fun k2 hk2 => hG k2 (List.mem_cons_of_mem k hk2)) hnd2.2]
    by_cases hkc : k = c
    · subst hkc
      have hcnt1 : List.countP (fun r => decide (r.code = some k)) [w] = 1 := by
        simp [List.countP_cons, hwc]
      rw [hcnt1, if_neg hnd2.1, if_pos (List.mem_cons_self k t)]
    · have hcnt0 : List.countP (fun r => decide (r.code = some c)) [w] = 0 := by
        simp [List.countP_cons, hwc, hkc]
      rw [hcnt0, Nat.zero_add]
      have hmem : (c ∈ k :: t) ↔ (c ∈ t) := by
        simp [List.mem_cons, show ¬c = k from fun hq => hkc hq.symm]
      by_cases hct : c ∈ t
      · rw [if_pos hct, if_pos (hmem.2 hct)]
      · rw [if_neg hct, if_neg (fun hq => hct (hmem.1 hq))]

/-- Every export row passed the quality filter under some export key. -/
theorem export_mem_split {rows : List ARow} {r : ARow} (h : r ∈ exportOf rows) :
    ∃ c, r ∈ qualityFilter rows ∧ r.code = some c := by
  rw [exportOf_eq] at h
  obtain ⟨k, hk, hrk⟩ := List.mem_flatMap.1 h
  obtain ⟨p, hp, hpeq⟩ := List.mem_map.1 hrk
  have hpc : p ∈ custom_rank (groupOf (qualityFilter rows) k) := List.mem_of_mem_filter hp
  have hmem : p.1 ∈ reorder (groupOf (qualityFilter rows) k) := by
    unfold custom_rank at hpc
    exact mem_assignRanks_fst hpc
  have hgr : p.1 ∈ groupOf (qualityFilter rows) k :=
    ((reorder_perm _).mem_iff).1 hmem
  rw [hpeq] at hgr
  obtain ⟨hrF, hrcode⟩ := mem_groupOf.1 hgr
  exact ⟨k, hrF, hrcode⟩

/-! ## Claim C1: export rows are unique per entity code. -/

/-- C1: every entity code appearing in the final export appears on exactly
one row — grouping by final entity code assigns dense ranks 1..N per group
and only the rank-1 row survives. -/
theorem export_entity_code_unique (rows : List ARow) (c : String)
    (h : ∃ r ∈ exportOf rows, r.code = some c) :
    (exportOf rows).countP (fun r => decide (r.code = some c)) = 1 := by
  obtain ⟨r, hr, hrc⟩ := h
  rw [exportOf_eq] at hr ⊢
  have hGspec : ∀ k ∈ exportKeys (qualityFilter rows),
      ∃ w, ((custom_rank (groupOf (qualityFilter rows) k)).filter
          (fun p => decide (p.2 = 1))).map Prod.fst = [w] ∧ w.code = some k := by
    intro k hk
    obtain ⟨w, hw1, hw2⟩ := group_winner (qualityFilter rows) k hk
    exact ⟨w, hw1, (mem_groupOf.1 hw2).2⟩
  have hnd : (exportKeys (qualityFilter rows)).Nodup := List.nodup_dedup _
  rw [countP_flatMap_singletons c _ _ hGspec hnd]
  have hcks : c ∈ exportKeys (qualityFilter rows) := by
    obtain ⟨k, hk, hrGk⟩ := List.mem_flatMap.1 hr
    obtain ⟨w, hw1, hw2⟩ := hGspec k hk
    rw [hw1] at hrGk
    have hrw : r = w := by simpa using hrGk
    rw [hrw, hw2] at hrc
    exact (Option.some.inj hrc) ▸ hk
  rw [if_pos hcks]

/-- Witness for C1 with a single filtered row carrying code "A". -/
theorem export_entity_code_unique_witness :
    (∃ r ∈ exportOf [(⟨some "A", none, none, 60, 60, some 9⟩ : ARow)],
      r.code = some "A") ∧
    (exportOf [(⟨some "A", none, none, 60, 60, some 9⟩ : ARow)]).countP
      (fun r => decide (r.code = some "A")) = 1 :=
  ⟨⟨⟨some "A", none, none, 60, 60, some 9⟩, by decide, by decide⟩,
    export_entity_code_unique [(⟨some "A", none, none, 60, 60, some 9⟩ : ARow)] "A"
      ⟨⟨some "A", none, none, 60, 60, some 9⟩, by decide, by decide⟩⟩

/-! ## Claim C3: export rows satisfy the quality thresholds. -/

/-- C3: an assignment appears in the final export only if its per-document
maximal exact-match similarity is at least 50 or its final confidence is at
least 80, and its sufficiency score is present and at least 8; every other
row has been dropped by the quality filter. -/
theorem export_rows_pass_quality_filter (rows : List ARow) (r : ARow)
    (h : r ∈ exportOf rows) :
    (50 ≤ r.maxSim ∨ 80 ≤ r.simFinal) ∧ ∃ s, r.suff = some s ∧ (8 : Int) ≤ s := by
  obtain ⟨c, hrF, _⟩ := export_mem_split h
  obtain ⟨_, hpred⟩ := List.mem_filter.1 hrF
  rw [Bool.and_eq_true] at hpred
  obtain ⟨h1, h2⟩ := hpred
  constructor
  · rw [Bool.or_eq_true] at h1
    rcases h1 with hh | hh
    · exact Or.inl (of_decide_eq_true hh)
    · exact Or.inr (of_decide_eq_true hh)
  · cases hs : r.suff with
    | none =>
      rw [hs] at h2
      simp at h2
    | some s =>
      rw [hs] at h2
      exact ⟨s, rfl, of_decide_eq_true (by simpa using h2)⟩

/-- Witness for C3 at a concrete one-row export. -/
theorem export_rows_pass_quality_filter_witness :
    (50 ≤ (⟨some "A", none, none, 60, 60, some 9⟩ : ARow).maxSim ∨
      80 ≤ (⟨some "A", none, none, 60, 60, some 9⟩ : ARow).simFinal) ∧
    ∃ s, (⟨some "A", none, none, 60, 60, some 9⟩ : ARow).suff = some s ∧ (8 : Int) ≤ s :=
  export_rows_pass_quality_filter [(⟨some "A", none, none, 60, 60, some 9⟩ : ARow)]
    ⟨some "A", none, none, 60, 60, some 9⟩ (by decide)

/-! ## Claim C2: the per-entity winner follows the recency tiers. -/

/-- C2: for every non-empty group of quality-filtered assignments sharing an
entity code, the single exported (rank-1) record carries a greatest
manufacture date when any group member has one; otherwise a greatest expiry
date when any member has one; otherwise it is the first member in arrival
order. -/
theorem custom_rank_selects_most_recent (g : List ARow) (hg : g ≠ []) :
    ∃ w, ((custom_rank g).filter (fun p => decide (p.2 = 1))).map Prod.fst = [w] ∧
      w ∈ g ∧
      ((∃ r ∈ g, r.mfg.isSome = true) →
        ∃ d, w.mfg = some d ∧ ∀ r ∈ g, ∀ d2, r.mfg = some d2 → d2 ≤ d) ∧
      ((∀ r ∈ g, r.mfg = none) → (∃ r ∈ g, r.expiry.isSome = true) →
        ∃ d, w.expiry = some d ∧ ∀ r ∈ g, ∀ d2, r.expiry = some d2 → d2 ≤ d) ∧
      ((∀ r ∈ g, r.mfg = none ∧ r.expiry = none) → g.head? = some w) := by
  rcases hre : reorder g with _ | ⟨w, t⟩
  · exact absurd hre (reorder_ne_nil hg)
  refine ⟨w, custom_rank_rank1_eq g w t hre, ?_, ?_, ?_, ?_⟩
  · have hw : w ∈ reorder g := by
      rw [hre]
      exact List.mem_cons_self _ _
    exact ((reorder_perm g).mem_iff).1 hw
  · rintro ⟨r0, hr0, hr0s⟩
    obtain ⟨k0, hk0⟩ := mem_withOrder_exists hr0 0
    have hk0t : (r0, k0) ∈ withMfg (withOrder 0 g) := List.mem_filter.2 ⟨hk0, hr0s⟩
    rcases hs1 : sortByKeyDesc (fun p => p.1.mfg.getD 0) (withMfg (withOrder 0 g)) with
      _ | ⟨a, t1⟩
    · exfalso
      have hmem := ((sortByKeyDesc_perm (fun p => p.1.mfg.getD 0)
        (withMfg (withOrder 0 g))).mem_iff).2 hk0t
      rw [hs1] at hmem
      cases hmem
    · have hre2 : reorder g = a.1 :: ((t1 ++
          sortByKeyDesc (fun p => p.1.expiry.getD 0) (withExpiry (withOrder 0 g)) ++
          sortByKeyAsc (fun p => p.2) (fallbackTier (withOrder 0 g))).map Prod.fst) := by
        unfold reorder
        rw [hs1]
        rfl
      rw [hre] at hre2
      injection hre2 with hwa _
      have hat : a ∈ withMfg (withOrder 0 g) := by
        have hm2 : a ∈ sortByKeyDesc (fun p => p.1.mfg.getD 0) (withMfg (withOrder 0 g)) := by
          rw [hs1]
          exact List.mem_cons_self _ _
        exact ((sortByKeyDesc_perm _ _).mem_iff).1 hm2
      have has : a.1.mfg.isSome = true := (List.mem_filter.1 hat).2
      obtain ⟨d, hd⟩ := Option.isSome_iff_exists.1 has
      refine ⟨d, ?_, ?_⟩
      · rw [hwa]
        exact hd
      · intro r hr d2 hd2
        obtain ⟨k, hk⟩ := mem_withOrder_exists hr 0
        have hkt : (r, k) ∈ withMfg (withOrder 0 g) := by
          refine List.mem_filter.2 ⟨hk, ?_⟩
          rw [show ((r, k) : ARow × Nat).1 = r from rfl, hd2]
          rfl
        have hle := sortByKeyDesc_head_max (fun p => p.1.mfg.getD 0)
          (withMfg (withOrder 0 g)) a t1 hs1 (r, k) hkt
        simp only [hd2, hd, Option.getD_some] at hle
        exact hle
  · intro hmnone
    rintro ⟨r0, hr0, hr0s⟩
    have ht1 : withMfg (withOrder 0 g) = [] := by
      apply List.filter_eq_nil_iff.2
      intro p hp
      rw [hmnone p.1 (mem_withOrder_fst hp)]
      simp
    have hs1nil : sortByKeyDesc (fun p => p.1.mfg.getD 0) (withMfg (withOrder 0 g)) = [] := by
      rw [ht1]
      rfl
    obtain ⟨k0, hk0⟩ := mem_withOrder_exists hr0 0
    have hk0t : (r0, k0) ∈ withExpiry (withOrder 0 g) := by
      refine List.mem_filter.2 ⟨hk0, ?_⟩
      have hm0 : r0.mfg = none := hmnone r0 hr0
      rw [show ((r0, k0) : ARow × Nat).1 = r0 from rfl, hm0]
      simp [hr0s]
    rcases hs2 : sortByKeyDesc (fun p => p.1.expiry.getD 0) (withExpiry (withOrder 0 g)) with
      _ | ⟨a, t2⟩
    · exfalso
      have hmem := ((sortByKeyDesc_perm (fun p => p.1.expiry.getD 0)
        (withExpiry (withOrder 0 g))).mem_iff).2 hk0t
      rw [hs2] at hmem
      cases hmem
    · have hre2 : reorder g = a.1 :: ((t2 ++
          sortByKeyAsc (fun p => p.2) (fallbackTier (withOrder 0 g))).map Prod.fst) := by
        unfold reorder
        rw [hs1nil, hs2]
        rfl
      rw [hre] at hre2
      injection hre2 with hwa _
      have hat : a ∈ withExpiry (withOrder 0 g) := by
        have hm2 : a ∈ sortByKeyDesc (fun p => p.1.expiry.getD 0)
            (withExpiry (withOrder 0 g)) := by
          rw [hs2]
          exact List.mem_cons_self _ _
        exact ((sortByKeyDesc_perm _ _).mem_iff).1 hm2
      have hboth := (List.mem_filter.1 hat).2
      rw [Bool.and_eq_true] at hboth
      have has : a.1.expiry.isSome = true := hboth.2
      obtain ⟨d, hd⟩ := Option.isSome_iff_exists.1 has
      refine ⟨d, ?_, ?_⟩
      · rw [hwa]
        exact hd
      · intro r hr d2 hd2
        obtain ⟨k, hk⟩ := mem_withOrder_exists hr 0
        have hkt : (r, k) ∈ withExpiry (withOrder 0 g) := by
          refine List.mem_filter.2 ⟨hk, ?_⟩
          rw [show ((r, k) : ARow × Nat).1 = r from rfl, hmnone r hr, hd2]
          rfl
        have hle := sortByKeyDesc_head_max (fun p => p.1.expiry.getD 0)
          (withExpiry (withOrder 0 g)) a t2 hs2 (r, k) hkt
        simp only [hd2, hd, Option.getD_some] at hle
        exact hle
  · intro hall
    have ht1 : withMfg (withOrder 0 g) = [] := by
      apply List.filter_eq_nil_iff.2
      intro p hp
      rw [(hall p.1 (mem_withOrder_fst hp)).1]
      simp
    have ht2 : withExpiry (withOrder 0 g) = [] := by
      apply List.filter_eq_nil_iff.2
      intro p hp
      rw [(hall p.1 (mem_withOrder_fst hp)).2]
      simp
    have ht3 : fallbackTier (withOrder 0 g) = withOrder 0 g := by
      apply List.filter_eq_self.2
      intro p hp
      rw [(hall p.1 (mem_withOrder_fst hp)).1, (hall p.1 (mem_withOrder_fst hp)).2]
      rfl
    have hs3 : sortByKeyAsc (fun p => p.2) (fallbackTier (withOrder 0 g)) =
        withOrder 0 g := by
      rw [ht3]
      apply sortByKeyAsc_eq_of_sorted
      exact List.Pairwise.imp (fun hab => le_of_lt hab) (withOrder_pairwise 0 g)
    have hre2 : reorder g = g := by
      unfold reorder
      rw [ht1, ht2, hs3]
      rw [show sortByKeyDesc (fun p : ARow × Nat => p.1.mfg.getD 0) [] = [] from rfl]
      rw [show sortByKeyDesc (fun p : ARow × Nat => p.1.expiry.getD 0) [] = [] from rfl]
      rw [List.nil_append, List.nil_append, withOrder_map_fst]
    rw [hre] at hre2
    rw [← hre2]
    rfl

/-- Witness for C2 at a two-row group whose second row carries the later
manufacture date. -/
theorem custom_rank_selects_most_recent_witness :
    (([⟨some "A", some 5, none, 60, 60, some 9⟩,
       ⟨some "A", some 9, none, 60, 60, some 9⟩] : List ARow) ≠ []) ∧
    ∃ w, ((custom_rank [⟨some "A", some 5, none, 60, 60, some 9⟩,
          ⟨some "A", some 9, none, 60, 60, some 9⟩]).filter
        (fun p => decide (p.2 = 1))).map Prod.fst = [w] ∧
      w ∈ ([⟨some "A", some 5, none, 60, 60, some 9⟩,
        ⟨some "A", some 9, none, 60, 60, some 9⟩] : List ARow) ∧
      ((∃ r ∈ ([⟨some "A", some 5, none, 60, 60, some 9⟩,
          ⟨some "A", some 9, none, 60, 60, some 9⟩] : List ARow), r.mfg.isSome = true) →
        ∃ d, w.mfg = some d ∧
          ∀ r ∈ ([⟨some "A", some 5, none, 60, 60, some 9⟩,
            ⟨some "A", some 9, none, 60, 60, some 9⟩] : List ARow),
            ∀ d2, r.mfg = some d2 → d2 ≤ d) ∧
      ((∀ r ∈ ([⟨some "A", some 5, none, 60, 60, some 9⟩,
          ⟨some "A", some 9, none, 60, 60, some 9⟩] : List ARow), r.mfg = none) →
        (∃ r ∈ ([⟨some "A", some 5, none, 60, 60, some 9⟩,
          ⟨some "A", some 9, none, 60, 60, some 9⟩] : List ARow), r.expiry.isSome = true) →
        ∃ d, w.expiry = some d ∧
          ∀ r ∈ ([⟨some "A", some 5, none, 60, 60, some 9⟩,
            ⟨some "A", some 9, none, 60, 60, some 9⟩] : List ARow),
            ∀ d2, r.expiry = some d2 → d2 ≤ d) ∧
      ((∀ r ∈ ([⟨some "A", some 5, none, 60, 60, some 9⟩,
          ⟨some "A", some 9, none, 60, 60, some 9⟩] : List ARow),
          r.mfg = none ∧ r.expiry = none) →
        ([⟨some "A", some 5, none, 60, 60, some 9⟩,
          ⟨some "A", some 9, none, 60, 60, some 9⟩] : List ARow).head? = some w) :=
  ⟨by decide,
    custom_rank_selects_most_recent
      [⟨some "A", some 5, none, 60, 60, some 9⟩,
       ⟨some "A", some 9, none, 60, 60, some 9⟩] (by decide)⟩

/-! ## Claim C10: export rows carry a non-null entity code. -/

/-- C10: every row of the final export has a non-null final entity code, and
a filtered assignment whose code is null is dropped by the per-entity
grouping, which excludes null keys. -/
theorem export_rows_have_entity_code (rows : List ARow) :
    (∀ r ∈ exportOf rows, r.code.isSome = true) ∧
    (∀ r ∈ qualityFilter rows, r.code = none → r ∉ exportOf rows) := by
  have hmain : ∀ r ∈ exportOf rows, r.code.isSome = true := by
    intro r hr
    obtain ⟨c, _, hcode⟩ := export_mem_split hr
    rw [hcode]
    rfl
  refine ⟨hmain, ?_⟩
  intro r _ hnone hmem
  have hsome := hmain r hmem
  rw [hnone] at hsome
  exact absurd hsome (by decide)

/-- Witness for C10 at a concrete one-row export. -/
theorem export_rows_have_entity_code_witness :
    (⟨some "A", none, none, 60, 60, some 9⟩ : ARow) ∈
      exportOf [(⟨some "A", none, none, 60, 60, some 9⟩ : ARow)] ∧
    ((⟨some "A", none, none, 60, 60, some 9⟩ : ARow)).code.isSome = true :=
  ⟨by decide,
    (export_rows_have_entity_code [(⟨some "A", none, none, 60, 60, some 9⟩ : ARow)]).1
      ⟨some "A", none, none, 60, 60, some 9⟩ (by decide)⟩

end COA
